import Mathlib

/-!
Verification of `gatsby-source-directus` (`src/gatsby-node.js`) against its
natural-language specification.  The source file is shallowly embedded below:
pure fragments become Lean functions, the stateful `Plugin` singleton becomes
explicit state passing on a `PluginState` record, thrown JS errors become
`Except` values, and the event loop's timers are recorded as explicit lists of
scheduled sleep durations.
-/

set_option autoImplicit false

namespace GatsbySourceDirectus

/-! ## Retrying fetch client

Embeds the `fetch` closure built inside `Plugin.getOptions` (gatsby-node.js
lines 226-250):

    let count = 0; let response = null; let error = null;
    while (response === null && count++ < this.retries) {
      try { response = await request(); } catch (err) { error = err; }
      if (count > 0) { await sleep(Math.pow(2, count) * 1000); }
    }
    if (response === null) throw error;
    return response;

The transport is a function from the 1-based attempt index to the attempt's
outcome.  `FetchOutcome` records the returned value (or the thrown error,
`none` standing for the initial `null` error variable), the number of attempts
made, and the list of sleep durations awaited, in order.  The loop variable
`count` equals the number of attempts begun, and the guard `count++ < retries`
is rendered by the remaining-budget fuel `retries - count`, which makes the
recursion structural. -/

structure FetchOutcome (ε ρ : Type) where
  result : Except (Option ε) ρ
  attempts : Nat
  sleeps : List Nat
  deriving Repr

def fetchAux {ε ρ : Type} (transport : Nat → Except ε ρ) :
    Nat → Nat → Option ε → List Nat → FetchOutcome ε ρ
  | 0, count, err, sleeps => ⟨Except.error err, count, sleeps⟩
  | fuel + 1, count, _err, sleeps =>
    match transport (count + 1) with
    | Except.ok r => ⟨Except.ok r, count + 1, sleeps ++ [2 ^ (count + 1) * 1000]⟩
    | Except.error e => fetchAux transport fuel (count + 1) (some e) (sleeps ++ [2 ^ (count + 1) * 1000])

def fetchModel {ε ρ : Type} (transport : Nat → Except ε ρ) (retries : Nat) : FetchOutcome ε ρ :=
  fetchAux transport retries 0 none []

/-! ## Paginated file enumerator

Embeds `Plugin.iterateFiles` (lines 265-291).  The backing store is a list of
records sorted by the stable sort key; the query with `limit = N, page = p`
returns the records at indices `[(p-1)*N, p*N)`, i.e. `(l.drop ((p-1)*N)).take N`.
The generator is rendered as the list of yielded batches:

    while (hasMore) {
      const files = await ...readByQuery({ limit: this.concurrency, page });
      yield files;
      if (files.length < this.concurrency) { hasMore = false; } else { page++; }
    }

Each continuing round drops one full page from the front of the remaining
store, so the recursion is structural on a fuel that is at least the number of
rounds.  (With `N = 0` the source loop never terminates — `files.length < 0`
is unreachable; the fuel then runs out instead.  All claims assume `N ≥ 1`.) -/

def iterPages {α : Type} (N : Nat) : Nat → List α → List (List α)
  | 0, _ => []
  | fuel + 1, l =>
    if (l.take N).length < N then [l.take N] else l.take N :: iterPages N fuel (l.drop N)

def iterateFilesModel {α : Type} (N : Nat) (l : List α) : List (List α) :=
  iterPages N (l.length + 1) l

/-! ## Filename splitting

Embeds the name/extension derivation inside `exports.sourceNodes`
(lines 90-92), on the `List Char` view of JS strings:

    const nameParts = file.filename_download.split('.');
    const ext = nameParts.length > 1 ? `.${nameParts.pop()}` : '';
    const name = nameParts.join('.');

`splitOnDot` is JS `String.prototype.split('.')` (so `"".split('.') = [""]`),
and `joinDots` is `Array.prototype.join('.')`. -/

def splitOnDot : List Char → List (List Char)
  | [] => [[]]
  | c :: rest =>
    if c = '.' then [] :: splitOnDot rest
    else
      match splitOnDot rest with
      | [] => [[c]]
      | p :: ps => (c :: p) :: ps

def joinDots : List (List Char) → List Char
  | [] => []
  | [p] => p
  | p :: ps => p ++ '.' :: joinDots ps

def splitFilename (s : List Char) : List Char × List Char :=
  if 1 < (splitOnDot s).length
  then (joinDots (splitOnDot s).dropLast, '.' :: (splitOnDot s).getLastD [])
  else (joinDots (splitOnDot s), [])

/-! ## Error messages

`error(message)` (lines 336-343) throws `new Error('gatsby-source-directus: '
+ message)`; `Plugin.iterateFiles` / `Plugin.headers` throw
`new Error('Directus is not instantiated')` and the `imageFile` resolver in
`exports.createResolvers` throws `new Error('Cached image not found for id: '
+ source.id)`, none of which pass through `error()`. -/

def identityTag : String := "gatsby-source-directus"

def errorMessage (m : String) : String := identityTag ++ ": " ++ m

def notInstantiatedMessage : String := "Directus is not instantiated"

def cacheMissMessage (sourceId : String) : String := "Cached image not found for id: " ++ sourceId

/-- The message `m` starts with the identity tag. -/
def hasTag (m : String) : Prop := m.data.take identityTag.data.length = identityTag.data

instance (m : String) : Decidable (hasTag m) := by
  unfold hasTag
  infer_instance

/-! ## Asset sync cache

Embeds the per-file body of the loop in `exports.sourceNodes` (lines 77-109).
The host cache (`cache.get` / `cache.set`) is an association list queried
front-to-back, with `cache.set` rendered as a prepend (the freshest entry
shadows older ones); the node store (`getNode`) is the list of registered node
identifiers.  `createRemoteFileNode` is the host download-and-register
service: it downloads the asset and registers a node whose identifier is
`nodeIdOf file` (an oracle parameter standing for `createNodeId`); a call to
it is counted in `downloads`.  `touchNode` appends to `touched`.

    const cached = await cache.get(file.id);
    const node = cached && getNode(cached.nodeId);
    if (node) { touchNode(node); return; }
    ... const fileNode = await createRemoteFileNode({...});
    await cache.set(file.id, { nodeId: fileNode.id });
-/

structure DFile where
  id : String
  filename_download : String
  deriving Repr, DecidableEq

def cacheGet (c : List (String × String)) (k : String) : Option String :=
  match c with
  | [] => none
  | e :: rest => if e.1 = k then some e.2 else cacheGet rest k

structure SyncState where
  cacheStore : List (String × String)
  nodes : List String
  touched : List String
  downloads : Nat
  deriving Repr, DecidableEq

def processFile (nodeIdOf : DFile → String) (st : SyncState) (f : DFile) : SyncState :=
  match cacheGet st.cacheStore f.id with
  | some nid =>
    if nid ∈ st.nodes then { st with touched := st.touched ++ [nid] }
    else
      { st with
        nodes := st.nodes ++ [nodeIdOf f]
        downloads := st.downloads + 1
        cacheStore := (f.id, nodeIdOf f) :: st.cacheStore }
  | none =>
    { st with
      nodes := st.nodes ++ [nodeIdOf f]
      downloads := st.downloads + 1
      cacheStore := (f.id, nodeIdOf f) :: st.cacheStore }

/-- One invocation of `exports.sourceNodes`' file loop over the full record
stream, with the per-run effect counters (`touched`, `downloads`) reset at the
start of the run; `cacheStore` and `nodes` persist across runs. -/
def runSync (nodeIdOf : DFile → String) (files : List DFile) (st : SyncState) : SyncState :=
  files.foldl (processFile nodeIdOf) { st with touched := [], downloads := 0 }

def emptySyncState : SyncState := ⟨[], [], [], 0⟩

/-! ## Endpoint resolution

Embeds the URL block of `Plugin.setOptions` (lines 174-188):

    const baseUrl = new URL(url);
    const basePath = baseUrl.pathname.endsWith('/') ? baseUrl.pathname.slice(0, -1) : baseUrl.pathname;
    baseUrl.pathname = basePath;            this.url = baseUrl.toString();
    baseUrl.pathname = basePath + '/graphql';        this.urlGraphql = baseUrl.toString();
    baseUrl.pathname = basePath + '/graphql/system'; this.urlGraphqlSystem = baseUrl.toString();

The platform's WHATWG `URL` is modelled for inputs of the restricted shape
`scheme://host[/path]` (no userinfo, port, query, fragment, `.`/`..`
segments, or characters needing percent-encoding): parsing splits at the
first `://`, the host runs to the first `/`, the rest is the path.  As in the
standard, the `pathname` getter of a special URL with no path characters
yields `"/"`, and the `pathname` setter re-parses the assigned string —
assigning the empty string leaves the single empty segment, which the
serializer writes back as `"/"` (a special URL's serialized path is never
empty), while assigning a `"/"`-prefixed string of plain segments stores it
verbatim.  `UrlRec.path` holds the serialized path, so serialization is
`scheme://host` followed by it.  Inputs outside this shape are rejected, as
`new URL` rejects inputs with no `scheme://`. -/

structure UrlRec where
  scheme : List Char
  host : List Char
  path : List Char
  deriving Repr, DecidableEq

def splitScheme : List Char → Option (List Char × List Char)
  | [] => none
  | c :: rest =>
    if c = ':' ∧ rest.take 2 = ['/', '/'] then some ([], rest.drop 2)
    else
      match splitScheme rest with
      | some (s, r) => some (c :: s, r)
      | none => none

def splitHost : List Char → List Char × List Char
  | [] => ([], [])
  | c :: rest =>
    if c = '/' then ([], c :: rest)
    else (c :: (splitHost rest).1, (splitHost rest).2)

def parseUrl (s : List Char) : Option UrlRec :=
  match splitScheme s with
  | none => none
  | some (scheme, rest) =>
    if scheme = [] then none
    else if (splitHost rest).1 = [] then none
    else some ⟨scheme, (splitHost rest).1, (splitHost rest).2⟩

def serializeUrl (u : UrlRec) : List Char :=
  u.scheme ++ (':' :: '/' :: '/' :: u.host) ++ u.path

/-- The `basePath` computed from the `pathname` getter of the parsed URL
(for a special URL with no path characters the getter yields `"/"`):

    const basePath = baseUrl.pathname.endsWith('/') ? baseUrl.pathname.slice(0, -1) : baseUrl.pathname;
-/
def basePathOf (p : List Char) : List Char :=
  if (if p = [] then ['/'] else p).getLast? = some '/'
  then (if p = [] then ['/'] else p).dropLast
  else (if p = [] then ['/'] else p)

/-- The WHATWG `pathname` setter, `baseUrl.pathname = p`: an emptied path
becomes the single empty segment, whose serialized form is `"/"`; a
`"/"`-prefixed string of plain segments is stored verbatim.  (`basePath` is
always empty or `"/"`-prefixed, so these are the only cases reached.) -/
def setPathname (u : UrlRec) (p : List Char) : UrlRec :=
  { u with path := if p = [] then ['/'] else p }

/-- The three URLs computed by `Plugin.setOptions`: `this.url`,
`this.urlGraphql`, `this.urlGraphqlSystem`, or the `error(...)` raised when
`new URL(url)` throws. -/
def resolveUrls (s : List Char) : Except String (List Char × List Char × List Char) :=
  match parseUrl s with
  | none => Except.error (errorMessage "\"url\" should be a valid URL")
  | some u =>
    Except.ok
      (serializeUrl (setPathname u (basePathOf u.path)),
       serializeUrl (setPathname u (basePathOf u.path ++ "/graphql".data)),
       serializeUrl (setPathname u (basePathOf u.path ++ "/graphql/system".data)))

/-! ## Plugin state and lifecycle

Embeds the `Plugin` class singleton (lines 142-313).  The `@directus/sdk`
session (`new Directus`, `auth.static`, `auth.login`, `auth.token`) is an
external collaborator, modelled per the spec's description of it:
`auth.static(token)` adopts the token directly with no login exchange,
`auth.login({email, password})` performs one login exchange and adopts the
token the remote returns (the oracle `loginFn`), and `auth.token` reads the
currently held token.  `loginExchanges` counts login requests performed when
the session was created. -/

structure DirectusSession where
  token : Option String
  loginExchanges : Nat
  deriving Repr, DecidableEq

inductive HeaderSpec where
  | absent
  | staticMap (m : List (String × String))
  | dynamic (f : Unit → List (String × String))

structure AuthConfig where
  token : Option String
  email : Option String
  password : Option String
  deriving Repr, DecidableEq

structure TypeConfig where
  name : Option String
  field : Option String
  system_name : Option String
  system_field : Option String
  deriving Repr, DecidableEq

structure PluginConfig where
  url : String
  auth : Option AuthConfig
  typeCfg : Option TypeConfig
  devRefresh : Option Nat
  concurrency : Nat
  retries : Nat
  headersSpec : HeaderSpec

structure PluginState where
  directus : Option DirectusSession
  options : Option PluginConfig
  url : List Char
  urlGraphql : List Char
  urlGraphqlSystem : List Char
  refreshInterval : Nat
  authPromise : Option String
  concurrency : Nat
  retries : Nat

/-- The `Plugin` constructor (lines 143-155). -/
def initialPluginState : PluginState :=
  { directus := none, options := none, url := [], urlGraphql := [], urlGraphqlSystem := []
    refreshInterval := 0, authPromise := none, concurrency := 10, retries := 5 }

/-- `isEmpty(value)` (lines 330-334): a string is empty iff its length is 0;
every non-string (including `undefined`) is empty.  On an `Option String`
field this is: absent, or present and `""`. -/
def isEmptyOpt : Option String → Bool
  | none => true
  | some s => s.length = 0

/-- `Plugin.setOptions` (lines 157-211), with thrown errors as `Except.error`
and the returned `this.authPromise` paired with the updated state.  `loginFn`
is the remote login endpoint: the token returned for an email/password
exchange. -/
def setOptions (loginFn : String → String → String) (st : PluginState) (o : PluginConfig) :
    Except String (PluginState × Option String) :=
  if isEmptyOpt (some o.url) then Except.error (errorMessage "\"url\" must be defined")
  else if st.directus.isSome then Except.ok (st, st.authPromise)
  else
    let hasToken := !isEmptyOpt (o.auth.bind AuthConfig.token)
    let hasEmail := !isEmptyOpt (o.auth.bind AuthConfig.email)
    let hasPassword := !isEmptyOpt (o.auth.bind AuthConfig.password)
    let hasCredentials := hasEmail && hasPassword
    if o.auth.isSome ∧ !hasToken ∧ !hasCredentials then
      Except.error (errorMessage "\"auth.token\" or (\"auth.email\" and \"auth.password\") must be defined")
    else
      match resolveUrls o.url.data with
      | Except.error m => Except.error m
      | Except.ok (root, gq, gqSys) =>
        let session : DirectusSession :=
          if hasToken then { token := o.auth.bind AuthConfig.token, loginExchanges := 0 }
          else if hasCredentials then
            { token := some (loginFn ((o.auth.bind AuthConfig.email).getD "")
                ((o.auth.bind AuthConfig.password).getD "")), loginExchanges := 1 }
          else { token := none, loginExchanges := 0 }
        let authPromise := session.token
        let refresh := match o.devRefresh with
          | some n => if n = 0 then 15 else n
          | none => 15
        Except.ok
          ({ directus := some session, options := some o, url := root, urlGraphql := gq
             urlGraphqlSystem := gqSys, refreshInterval := refresh, authPromise := authPromise
             concurrency := o.concurrency, retries := o.retries }, authPromise)

/-- The user-supplied extra headers resolved inside `Plugin.headers`
(lines 296-301): a static object is copied, a function is called, anything
else contributes nothing. -/
def userHeaders (st : PluginState) : List (String × String) :=
  match st.options with
  | some o =>
    match o.headersSpec with
    | HeaderSpec.absent => []
    | HeaderSpec.staticMap m => m
    | HeaderSpec.dynamic f => f ()
  | none => []

/-- `Plugin.headers` (lines 293-312).  `Object.assign(headers, overrides)` is
rendered by prepending the overrides, `cacheGet` returning the first match. -/
def headersFn (st : PluginState) : Except String (List (String × String)) :=
  match st.directus with
  | none => Except.error notInstantiatedMessage
  | some session =>
    match session.token with
    | some t => Except.ok (("Authorization", "Bearer " ++ t) :: userHeaders st)
    | none => Except.ok (userHeaders st)

/-- The guard of `Plugin.iterateFiles` (lines 265-266): throws before any
page is requested when no session exists. -/
def iterateFilesGuard (st : PluginState) : Except String Unit :=
  if st.directus.isSome then Except.ok () else Except.error notInstantiatedMessage

/-- The `imageFile.resolve` callback of `exports.createResolvers`
(lines 125-133): a cache hit returns the (possibly absent) node, a miss
throws. -/
def imageFileResolve (cache : List (String × String)) (nodes : List String) (sourceId : String) :
    Except String (Option String) :=
  match cacheGet cache sourceId with
  | some nid => Except.ok (if nid ∈ nodes then some nid else none)
  | none => Except.error (cacheMissMessage sourceId)

/-- `Plugin.getOptions` (lines 213-252) up to the facts the claims need:
`Object.entries(this.options)` throws a `TypeError` when `this.options` is
`null`; otherwise the bundle carries the GraphQL endpoint, the dataset
names, and the bound `headers` callback. -/
def typeErrorMessage : String := "TypeError: Cannot convert undefined or null to object"

structure OptionsBundle where
  url : List Char
  typeName : String
  fieldName : String

def getOptionsModel (st : PluginState) : Except String OptionsBundle :=
  match st.options with
  | none => Except.error typeErrorMessage
  | some o =>
    Except.ok
      { url := st.urlGraphql
        typeName := ((o.typeCfg.bind TypeConfig.name).getD "DirectusData")
        fieldName := ((o.typeCfg.bind TypeConfig.field).getD "directus") }

/-- The session-relevant head of `exports.sourceNodes` (lines 44-57), in
program order:

    const { headers } = await plugin.getOptions();
    const { Authorization } = await headers();
    await plugin.setOptions(pluginOptions);

followed by the rest of the handler, summarized by the state in which it
runs.  The result is the plugin state in effect after `setOptions`. -/
def sourceNodesModel (loginFn : String → String → String) (st : PluginState)
    (pluginOptions : PluginConfig) : Except String PluginState := do
  let _bundle ← getOptionsModel st
  let _auth ← headersFn st
  let r ← setOptions loginFn st pluginOptions
  pure r.1

/-- The login endpoint used by the concrete scenarios below. -/
def trivialLogin : String → String → String := fun _ _ => "session-token"

/-- A first valid configuration (static token). -/
def cfgA : PluginConfig :=
  { url := "https://a.example", auth := some ⟨some "token-a", none, none⟩, typeCfg := none
    devRefresh := none, concurrency := 10, retries := 5, headersSpec := HeaderSpec.absent }

/-- A second, different valid configuration (static token). -/
def cfgB : PluginConfig :=
  { url := "https://b.example", auth := some ⟨some "token-b", none, none⟩, typeCfg := none
    devRefresh := none, concurrency := 10, retries := 5, headersSpec := HeaderSpec.absent }

/-- The plugin state after a first successful `setOptions(cfgA)`. -/
def stA : PluginState :=
  match setOptions trivialLogin initialPluginState cfgA with
  | Except.ok p => p.1
  | Except.error _ => initialPluginState

/-! ## Lemmas on the retrying fetch client -/

theorem fetchAux_all_fail {ε ρ : Type} (transport : Nat → Except ε ρ) :
    ∀ (fuel count : Nat) (err : Option ε) (sleeps : List Nat),
      (∀ i, count < i → i ≤ count + fuel → ∃ e, transport i = Except.error e) →
      (fetchAux transport fuel count err sleeps).attempts = count + fuel ∧
      (fetchAux transport fuel count err sleeps).sleeps
        = sleeps ++ (List.range' (count + 1) fuel).map (fun i => 2 ^ i * 1000) ∧
      (fuel = 0 → (fetchAux transport fuel count err sleeps).result = Except.error err) ∧
      (0 < fuel → ∃ e, transport (count + fuel) = Except.error e ∧
          (fetchAux transport fuel count err sleeps).result = Except.error (some e)) := by
  intro fuel
  induction fuel with
  | zero =>
    intro count err sleeps _
    refine ⟨rfl, by simp [fetchAux], fun _ => rfl, fun h => absurd h (by omega)⟩
  | succ fuel ih =>
    intro count err sleeps hfail
    obtain ⟨e, he⟩ := hfail (count + 1) (by omega) (by omega)
    have hstep : fetchAux transport (fuel + 1) count err sleeps
        = fetchAux transport fuel (count + 1) (some e) (sleeps ++ [2 ^ (count + 1) * 1000]) := by
      simp [fetchAux, he]
    have ih' := ih (count + 1) (some e) (sleeps ++ [2 ^ (count + 1) * 1000])
      (fun i h1 h2 => hfail i (by omega) (by omega))
    obtain ⟨ha, hsl, hz, hp⟩ := ih'
    refine ⟨by rw [hstep, ha]; omega, ?_, fun h => by omega, ?_⟩
    · rw [hstep, hsl, List.range'_succ, List.map_cons, List.append_assoc]
      rfl
    · intro _
      rcases Nat.eq_zero_or_pos fuel with hf | hf
      · subst hf
        exact ⟨e, by simpa using he, by rw [hstep]; exact hz rfl⟩
      · obtain ⟨e2, he2, hr2⟩ := hp hf
        exact ⟨e2, by rw [show count + (fuel + 1) = count + 1 + fuel by omega]; exact he2,
          by rw [hstep]; exact hr2⟩

theorem fetchAux_success {ε ρ : Type} (transport : Nat → Except ε ρ) (r : ρ) :
    ∀ (n count fuel : Nat) (err : Option ε) (sleeps : List Nat),
      n < fuel →
      (∀ i, count < i → i ≤ count + n → ∃ e, transport i = Except.error e) →
      transport (count + n + 1) = Except.ok r →
      fetchAux transport fuel count err sleeps =
        ⟨Except.ok r, count + n + 1,
         sleeps ++ (List.range' (count + 1) (n + 1)).map (fun i => 2 ^ i * 1000)⟩ := by
  intro n
  induction n with
  | zero =>
    intro count fuel err sleeps hfuel _ hsucc
    match fuel, hfuel with
    | fuel + 1, _ =>
      simp only [Nat.add_zero] at hsucc
      simp [fetchAux, hsucc, List.range'_succ, List.range']
  | succ n ih =>
    intro count fuel err sleeps hfuel hfail hsucc
    match fuel, hfuel with
    | fuel + 1, hfuel =>
      obtain ⟨e, he⟩ := hfail (count + 1) (by omega) (by omega)
      have hstep : fetchAux transport (fuel + 1) count err sleeps
          = fetchAux transport fuel (count + 1) (some e) (sleeps ++ [2 ^ (count + 1) * 1000]) := by
        simp [fetchAux, he]
      rw [hstep, ih (count + 1) fuel (some e) (sleeps ++ [2 ^ (count + 1) * 1000]) (by omega)
        (fun i h1 h2 => hfail i (by omega) (by omega))
        (by rw [show count + 1 + n + 1 = count + (n + 1) + 1 by omega]; exact hsucc)]
      simp only [FetchOutcome.mk.injEq, true_and]
      refine ⟨by omega, ?_⟩
      rw [List.range'_succ, List.map_cons, List.append_assoc]
      rfl

/-- C1: for the retrying fetch of `Plugin.getOptions` with retry budget
`retries`: if the transport throws on the first `k < retries` attempts and
succeeds on attempt `k + 1`, `fetch` returns that successful response (after
`k + 1` attempts); if the transport throws on every attempt, `fetch` makes
exactly `retries` attempts and never more, then raises the error captured on
the last attempt. -/
theorem fetch_retry_budget {ε ρ : Type} (transport : Nat → Except ε ρ) (retries : Nat) :
    (∀ (k : Nat) (r : ρ), k < retries →
        (∀ i, 1 ≤ i → i ≤ k → ∃ e, transport i = Except.error e) →
        transport (k + 1) = Except.ok r →
        (fetchModel transport retries).result = Except.ok r ∧
        (fetchModel transport retries).attempts = k + 1) ∧
    ((∀ i, 1 ≤ i → ∃ e, transport i = Except.error e) → 1 ≤ retries →
        (fetchModel transport retries).attempts = retries ∧
        ∃ e, transport retries = Except.error e ∧
          (fetchModel transport retries).result = Except.error (some e)) := by
  constructor
  · intro k r hk hfail hsucc
    have h := fetchAux_success transport r k 0 retries none [] hk
      (fun i h1 h2 => hfail i (by omega) (by omega)) (by simpa using hsucc)
    rw [fetchModel, h]
    exact ⟨rfl, by simp⟩
  · intro hfail hr
    have h := fetchAux_all_fail transport retries 0 none []
      (fun i h1 _ => hfail i (by omega))
    obtain ⟨ha, _, _, hp⟩ := h
    obtain ⟨e, he, hres⟩ := hp (by omega)
    exact ⟨by rw [fetchModel, ha]; omega, e, by simpa using he, by rw [fetchModel]; exact hres⟩

/-- C1 witness: with a transport that throws on attempts 1 and 2 and succeeds
on attempt 3, and budget 5, fetch returns the attempt-3 response after
exactly 3 attempts. -/
theorem fetch_retry_budget_witness :
    (2 : Nat) < 5 ∧
    (fetchModel (fun i => if i < 3 then Except.error i else Except.ok (42 : Nat)) 5).result
        = Except.ok 42 ∧
    (fetchModel (fun i => if i < 3 then Except.error i else Except.ok (42 : Nat)) 5).attempts = 3 :=
  ⟨by decide,
    (fetch_retry_budget (fun i => if i < 3 then Except.error i else Except.ok (42 : Nat)) 5).1
      2 42 (by decide)
      (fun i h1 h2 => ⟨i, by simp [show i < 3 by omega]⟩)
      rfl⟩

/-- C5 counterexample: with a transport that succeeds immediately and budget
5, the loop makes one attempt and yet one sleep of `2^1 * 1000` milliseconds
is incurred after the response is obtained, before it is returned — the
claim's "once any response is received no further sleep is incurred before
returning it" predicts an empty sleep list here. -/
theorem fetch_sleep_after_success_cx :
    (fetchModel (fun _ => (Except.ok 0 : Except Nat Nat)) 5).attempts = 1 ∧
    (fetchModel (fun _ => (Except.ok 0 : Except Nat Nat)) 5).sleeps = [2000] ∧
    (fetchModel (fun _ => (Except.ok 0 : Except Nat Nat)) 5).sleeps ≠ [] := by
  refine ⟨rfl, rfl, by decide⟩

/-- C5 (amended): in the retrying fetch, a sleep of `2^attempt * 1000`
milliseconds (attempt the 1-based count of attempts made so far) occurs after
EVERY attempt — between consecutive attempts, never before the first attempt,
and additionally once after the attempt that obtains the response — and the
loop makes no further attempts once a response is obtained, though that one
final sleep is incurred before the response is returned: success on attempt
`k + 1` yields exactly the sleep schedule `2^1*1000, ..., 2^(k+1)*1000`. -/
theorem fetch_backoff_schedule {ε ρ : Type} (transport : Nat → Except ε ρ)
    (retries k : Nat) (r : ρ) (hk : k < retries)
    (hfail : ∀ i, 1 ≤ i → i ≤ k → ∃ e, transport i = Except.error e)
    (hsucc : transport (k + 1) = Except.ok r) :
    (fetchModel transport retries).attempts = k + 1 ∧
    (fetchModel transport retries).result = Except.ok r ∧
    (fetchModel transport retries).sleeps
      = (List.range' 1 (k + 1)).map (fun i => 2 ^ i * 1000) := by
  have h := fetchAux_success transport r k 0 retries none [] hk
    (fun i h1 h2 => hfail i (by omega) (by omega)) (by simpa using hsucc)
  rw [fetchModel, h]
  exact ⟨by simp, rfl, by simp⟩

/-- C5 (amended) witness: transport failing on attempt 1, succeeding on
attempt 2, budget 5: two attempts, sleeps `[2000, 4000]`. -/
theorem fetch_backoff_schedule_witness :
    (1 : Nat) < 5 ∧
    (fetchModel (fun i => if i < 2 then Except.error i else Except.ok (7 : Nat)) 5).attempts = 2 ∧
    (fetchModel (fun i => if i < 2 then Except.error i else Except.ok (7 : Nat)) 5).result
        = Except.ok 7 ∧
    (fetchModel (fun i => if i < 2 then Except.error i else Except.ok (7 : Nat)) 5).sleeps
        = [2000, 4000] := by
  have h := fetch_backoff_schedule (fun i => if i < 2 then Except.error i else Except.ok (7 : Nat))
    5 1 7 (by decide)
    (fun i h1 h2 => ⟨i, by simp [show i < 2 by omega]⟩)
    rfl
  exact ⟨by decide, h.1, h.2.1, by rw [h.2.2]; decide⟩

/-! ## Lemmas on the paginated file enumerator -/

theorem getLastD_irrel {α : Type} : ∀ (l : List α) (d1 d2 : α), l ≠ [] → l.getLastD d1 = l.getLastD d2
  | [], _, _, h => absurd rfl h
  | a :: l, d1, d2, _ => by rw [List.getLastD_cons, List.getLastD_cons]

theorem iterPages_spec {α : Type} (N : Nat) (hN : 0 < N) :
    ∀ (fuel : Nat) (l : List α), l.length < fuel →
      (iterPages N fuel l).flatten = l ∧
      (iterPages N fuel l).length = l.length / N + 1 ∧
      (∀ b ∈ (iterPages N fuel l).dropLast, b.length = N) ∧
      iterPages N fuel l ≠ [] ∧
      ((iterPages N fuel l).getLastD []).length = l.length % N := by
  intro fuel
  induction fuel with
  | zero => intro l h; omega
  | succ fuel ih =>
    intro l hlen
    by_cases hshort : (l.take N).length < N
    · have hlN : l.length < N := by
        have := List.length_take N l
        omega
      have htake : l.take N = l := List.take_of_length_le (by omega)
      have hout : iterPages N (fuel + 1) l = [l.take N] := by
        rw [iterPages, if_pos hshort]
      rw [hout, htake]
      refine ⟨by simp, ?_, by simp, by simp, ?_⟩
      · simp [Nat.div_eq_of_lt hlN]
      · simp [List.getLastD, Nat.mod_eq_of_lt hlN]
    · have hNl : N ≤ l.length := by
        have := List.length_take N l
        omega
      have hfull : (l.take N).length = N := by
        have := List.length_take N l
        omega
      have hout : iterPages N (fuel + 1) l = l.take N :: iterPages N fuel (l.drop N) := by
        rw [iterPages, if_neg hshort]
      have hdrop : (l.drop N).length = l.length - N := List.length_drop N l
      obtain ⟨ihj, ihl, ihd, ihne, ihlast⟩ := ih (l.drop N) (by omega)
      have hlenrw : l.length = (l.length - N) + N := by omega
      refine ⟨?_, ?_, ?_, ?_, ?_⟩
      · rw [hout]
        simp only [List.flatten_cons, ihj]
        exact List.take_append_drop N l
      · rw [hout]
        simp only [List.length_cons, ihl, hdrop]
        have hdiv : l.length / N = (l.length - N) / N + 1 := by
          conv_lhs => rw [hlenrw]
          rw [Nat.add_div_right _ hN]
        omega
      · rw [hout, List.dropLast_cons_of_ne_nil ihne]
        intro b hb
        rcases List.mem_cons.mp hb with hb | hb
        · rw [hb]
          exact hfull
        · exact ihd b hb
      · rw [hout]
        simp
      · rw [hout, List.getLastD_cons, getLastD_irrel _ _ [] ihne, ihlast, hdrop]
        conv_rhs => rw [hlenrw]
        rw [Nat.add_mod_right]

/-- C2 counterexample: with page size `N = 1` and a backing store of `M = 1`
record, the enumerator yields 2 batches — the data batch `[0]` was full, so
the loop advances and only stops after yielding a second, empty batch — while
the claim's `ceil(M/N) = (1 + 1 - 1) / 1 = 1` predicts a single batch. -/
theorem iterate_files_batch_count_cx :
    iterateFilesModel 1 [(0 : Nat)] = [[0], []] ∧
    (iterateFilesModel 1 [(0 : Nat)]).length = 2 ∧
    (iterateFilesModel 1 [(0 : Nat)]).length ≠ (1 + 1 - 1) / 1 := by
  refine ⟨rfl, rfl, by decide⟩

/-- C2 (amended): for every page size `N ≥ 1` and every backing store of `M`
records, the enumerator yields exactly `M / N + 1` batches — that is,
`ceil(M/N)` when `N` does not divide `M`, and `ceil(M/N) + 1`, the final
batch empty, when `N` divides `M` (including `M = 0`).  Every batch before
the last has size exactly `N` (the page only advances on a full batch), the
last batch is short — its size is `M mod N < N` — and it ends the iteration;
concatenating all batches gives back the store, so the total record count
across batches equals `M`. -/
theorem iterate_files_pagination {α : Type} (N : Nat) (hN : 0 < N) (l : List α) :
    (iterateFilesModel N l).flatten = l ∧
    ((iterateFilesModel N l).map List.length).sum = l.length ∧
    (iterateFilesModel N l).length = l.length / N + 1 ∧
    (∀ b ∈ (iterateFilesModel N l).dropLast, b.length = N) ∧
    ((iterateFilesModel N l).getLastD []).length = l.length % N ∧
    ((iterateFilesModel N l).getLastD []).length < N := by
  obtain ⟨hj, hl, hd, hne, hlast⟩ := iterPages_spec N hN (l.length + 1) l (by omega)
  rw [iterateFilesModel] at *
  refine ⟨hj, ?_, hl, hd, hlast, ?_⟩
  · rw [← List.length_flatten, hj]
  · rw [hlast]
    exact Nat.mod_lt _ hN

/-- C2 (amended) witness: `N = 2`, store `[0, 1, 2]` (`M = 3`): two batches,
`[0, 1]` then the short final `[2]`, totalling 3 records. -/
theorem iterate_files_pagination_witness :
    (0 : Nat) < 2 ∧
    (iterateFilesModel 2 [(0 : Nat), 1, 2]).flatten = [0, 1, 2] ∧
    ((iterateFilesModel 2 [(0 : Nat), 1, 2]).map List.length).sum = 3 ∧
    (iterateFilesModel 2 [(0 : Nat), 1, 2]).length = 3 / 2 + 1 :=
  have h := iterate_files_pagination 2 (by decide) [(0 : Nat), 1, 2]
  ⟨by decide, h.1, h.2.1, h.2.2.1⟩

/-! ## Lemmas on the asset sync cache -/

theorem cacheGet_append_of_none (xs ys : List (String × String)) (k : String)
    (h : cacheGet xs k = none) : cacheGet (xs ++ ys) k = cacheGet ys k := by
  induction xs with
  | nil => rfl
  | cons e rest ih =>
    rw [cacheGet] at h
    by_cases he : e.1 = k
    · rw [if_pos he] at h
      exact absurd h (by simp)
    · rw [if_neg he] at h
      rw [List.cons_append, cacheGet, if_neg he]
      exact ih h

theorem cacheGet_append_of_some (xs ys : List (String × String)) (k v : String)
    (h : cacheGet xs k = some v) : cacheGet (xs ++ ys) k = some v := by
  induction xs with
  | nil => exact absurd h (by simp [cacheGet])
  | cons e rest ih =>
    rw [cacheGet] at h
    by_cases he : e.1 = k
    · rw [if_pos he] at h
      rw [List.cons_append, cacheGet, if_pos he]
      exact h
    · rw [if_neg he] at h
      rw [List.cons_append, cacheGet, if_neg he]
      exact ih h

theorem cacheGet_of_not_mem (xs : List (String × String)) (k : String)
    (h : k ∉ xs.map Prod.fst) : cacheGet xs k = none := by
  induction xs with
  | nil => rfl
  | cons e rest ih =>
    rw [List.map_cons] at h
    rw [cacheGet, if_neg (fun he => h (List.mem_cons.mpr (Or.inl he.symm)))]
    exact ih (fun hm => h (List.mem_cons.mpr (Or.inr hm)))

theorem sync_foldl_fresh (nodeIdOf : DFile → String) :
    ∀ (files : List DFile) (c : List (String × String)) (nd t : List String) (d : Nat),
      (∀ f ∈ files, cacheGet c f.id = none) →
      (files.map DFile.id).Nodup →
      List.foldl (processFile nodeIdOf) ⟨c, nd, t, d⟩ files =
        ⟨(files.map (fun f => (f.id, nodeIdOf f))).reverse ++ c,
         nd ++ files.map nodeIdOf, t, d + files.length⟩ := by
  intro files
  induction files with
  | nil => intro c nd t d _ _; simp
  | cons f fs ih =>
    intro c nd t d hmiss hnodup
    have hstep : processFile nodeIdOf ⟨c, nd, t, d⟩ f =
        ⟨(f.id, nodeIdOf f) :: c, nd ++ [nodeIdOf f], t, d + 1⟩ := by
      simp [processFile, hmiss f (List.mem_cons_self f fs)]
    rw [List.foldl_cons, hstep]
    rw [List.map_cons, List.nodup_cons] at hnodup
    have hmiss' : ∀ g ∈ fs, cacheGet ((f.id, nodeIdOf f) :: c) g.id = none := by
      intro g hg
      rw [cacheGet]
      have hne : f.id ≠ g.id := fun he => hnodup.1 (he ▸ List.mem_map_of_mem DFile.id hg)
      rw [if_neg hne]
      exact hmiss g (List.mem_cons.mpr (Or.inr hg))
    rw [ih ((f.id, nodeIdOf f) :: c) (nd ++ [nodeIdOf f]) t (d + 1) hmiss' hnodup.2]
    simp only [SyncState.mk.injEq]
    refine ⟨?_, ?_, ?_, ?_⟩
    · simp [List.append_assoc]
    · simp [List.append_assoc]
    · trivial
    · simp only [List.length_cons]
      omega

theorem sync_foldl_hits (nodeIdOf : DFile → String) (g : DFile → String) :
    ∀ (files : List DFile) (c : List (String × String)) (nd t : List String) (d : Nat),
      (∀ f ∈ files, cacheGet c f.id = some (g f) ∧ g f ∈ nd) →
      List.foldl (processFile nodeIdOf) ⟨c, nd, t, d⟩ files = ⟨c, nd, t ++ files.map g, d⟩ := by
  intro files
  induction files with
  | nil => intro c nd t d _; simp
  | cons f fs ih =>
    intro c nd t d hhit
    obtain ⟨hc, hn⟩ := hhit f (List.mem_cons_self f fs)
    have hstep : processFile nodeIdOf ⟨c, nd, t, d⟩ f = ⟨c, nd, t ++ [g f], d⟩ := by
      simp [processFile, hc, hn]
    rw [List.foldl_cons, hstep, ih c nd (t ++ [g f]) d (fun h hm => hhit h (List.mem_cons.mpr (Or.inr hm)))]
    simp

theorem cacheGet_run_pairs (nodeIdOf : DFile → String) :
    ∀ (files : List DFile) (f : DFile),
      (files.map DFile.id).Nodup → f ∈ files →
      cacheGet ((files.map (fun h => (h.id, nodeIdOf h))).reverse) f.id = some (nodeIdOf f) := by
  intro files
  induction files with
  | nil => intro f _ hf; exact absurd hf (by simp)
  | cons h fs ih =>
    intro f hnodup hf
    rw [List.map_cons, List.nodup_cons] at hnodup
    rw [List.map_cons, List.reverse_cons]
    rcases List.mem_cons.mp hf with hf | hf
    · subst hf
      have hkeys : ((fs.map (fun h => (h.id, nodeIdOf h))).reverse).map Prod.fst
          = (fs.map DFile.id).reverse := by
        rw [List.map_reverse, List.map_map]
        rfl
      have hnone : cacheGet ((fs.map (fun h => (h.id, nodeIdOf h))).reverse) f.id = none := by
        apply cacheGet_of_not_mem
        rw [hkeys]
        simpa [List.mem_reverse] using hnodup.1
      rw [cacheGet_append_of_none _ _ _ hnone, cacheGet, if_pos rfl]
    · exact cacheGet_append_of_some _ _ _ _ (ih f hnodup.2 hf)

/-- C3: in the asset sync step of `exports.sourceNodes`: a record whose
identifier has a cache entry pointing at a retrievable node only touches that
node (no download, no cache write, no node creation); a record with no cache
entry is downloaded, its node registered, and a cache entry from its
identifier to the new node identifier is stored; consequently a first run
over `files` from an empty cache downloads every record, and re-running with
the same record set performs zero downloads and touches every
previously-created node exactly once. -/
theorem asset_sync_cache (nodeIdOf : DFile → String) (files : List DFile) (st : SyncState)
    (f : DFile) (nid : String) (hids : (files.map DFile.id).Nodup) :
    (cacheGet st.cacheStore f.id = some nid → nid ∈ st.nodes →
      processFile nodeIdOf st f = { st with touched := st.touched ++ [nid] }) ∧
    (cacheGet st.cacheStore f.id = none →
      processFile nodeIdOf st f =
        { st with nodes := st.nodes ++ [nodeIdOf f], downloads := st.downloads + 1,
                  cacheStore := (f.id, nodeIdOf f) :: st.cacheStore }) ∧
    (runSync nodeIdOf files emptySyncState).downloads = files.length ∧
    (runSync nodeIdOf files (runSync nodeIdOf files emptySyncState)).downloads = 0 ∧
    (runSync nodeIdOf files (runSync nodeIdOf files emptySyncState)).touched
        = files.map nodeIdOf ∧
    ((files.map nodeIdOf).Nodup →
      ∀ n ∈ files.map nodeIdOf,
        (runSync nodeIdOf files (runSync nodeIdOf files emptySyncState)).touched.count n = 1) := by
  have hrun1 : runSync nodeIdOf files emptySyncState =
      ⟨(files.map (fun h => (h.id, nodeIdOf h))).reverse, files.map nodeIdOf, [], files.length⟩ := by
    rw [runSync]
    have := sync_foldl_fresh nodeIdOf files [] [] [] 0 (fun _ _ => rfl) hids
    simpa [emptySyncState] using this
  have hrun2 : runSync nodeIdOf files (runSync nodeIdOf files emptySyncState) =
      ⟨(files.map (fun h => (h.id, nodeIdOf h))).reverse, files.map nodeIdOf,
       files.map nodeIdOf, 0⟩ := by
    rw [hrun1, runSync]
    have := sync_foldl_hits nodeIdOf nodeIdOf files
      ((files.map (fun h => (h.id, nodeIdOf h))).reverse) (files.map nodeIdOf) [] 0
      (fun g hg => ⟨cacheGet_run_pairs nodeIdOf files g hids hg, List.mem_map_of_mem nodeIdOf hg⟩)
    simpa using this
  refine ⟨?_, ?_, ?_, ?_, ?_, ?_⟩
  · intro h1 h2
    simp [processFile, h1, h2]
  · intro h1
    simp [processFile, h1]
  · rw [hrun1]
  · rw [hrun2]
  · rw [hrun2]
  · intro hnd n hn
    rw [hrun2]
    exact List.count_eq_one_of_mem hnd hn

/-- C3 witness: two files with distinct identifiers, synced twice from an
empty cache: the second run downloads nothing and touches both nodes once. -/
theorem asset_sync_cache_witness :
    ([DFile.mk "a" "a.jpg", DFile.mk "b" "b.png"].map DFile.id).Nodup ∧
    (runSync (fun f => "node-" ++ f.id) [DFile.mk "a" "a.jpg", DFile.mk "b" "b.png"]
        (runSync (fun f => "node-" ++ f.id) [DFile.mk "a" "a.jpg", DFile.mk "b" "b.png"]
          emptySyncState)).downloads = 0 :=
  ⟨by decide,
    (asset_sync_cache (fun f => "node-" ++ f.id) [DFile.mk "a" "a.jpg", DFile.mk "b" "b.png"]
      emptySyncState (DFile.mk "a" "a.jpg") "n" (by decide)).2.2.2.1⟩

/-! ## Lemmas on endpoint resolution -/

theorem splitScheme_append_slash :
    ∀ (s sch rest : List Char), splitScheme s = some (sch, rest) →
      splitScheme (s ++ ['/']) = some (sch, rest ++ ['/']) := by
  intro s
  induction s with
  | nil => intro sch rest h; exact absurd h (by simp [splitScheme])
  | cons c cs ih =>
    intro sch rest h
    rw [splitScheme] at h
    by_cases hc : c = ':' ∧ cs.take 2 = ['/', '/']
    · rw [if_pos hc] at h
      simp only [Option.some.injEq, Prod.mk.injEq] at h
      obtain ⟨h1, h2⟩ := h
      subst h1
      subst h2
      have hlen : 2 ≤ cs.length := by
        have := congrArg List.length hc.2
        simp only [List.length_take, List.length_cons, List.length_nil] at this
        omega
      rw [List.cons_append, splitScheme,
        if_pos ⟨hc.1, by rw [List.take_append_of_le_length hlen, hc.2]⟩,
        List.drop_append_of_le_length hlen]
    · rw [if_neg hc] at h
      cases hcs : splitScheme cs with
      | none => rw [hcs] at h; exact absurd h (by simp)
      | some pr =>
        obtain ⟨s', r⟩ := pr
        rw [hcs] at h
        simp only [Option.some.injEq, Prod.mk.injEq] at h
        obtain ⟨h1, h2⟩ := h
        subst h1
        subst h2
        have hnc : ¬(c = ':' ∧ (cs ++ ['/']).take 2 = ['/', '/']) := by
          rintro ⟨hcc, htake⟩
          by_cases hlen2 : 2 ≤ cs.length
          · exact hc ⟨hcc, by rwa [List.take_append_of_le_length hlen2] at htake⟩
          · cases cs with
            | nil => rw [splitScheme] at hcs; exact absurd hcs (by simp)
            | cons d ds =>
              cases ds with
              | nil =>
                rw [splitScheme] at hcs
                rw [if_neg (by simp), splitScheme] at hcs
                exact absurd hcs (by simp)
              | cons e es =>
                exact hlen2 (by simp [List.length_cons])
        rw [List.cons_append, splitScheme, if_neg hnc, ih s' r hcs]

theorem splitHost_append_slash :
    ∀ (s h p : List Char), splitHost s = (h, p) → splitHost (s ++ ['/']) = (h, p ++ ['/']) := by
  intro s
  induction s with
  | nil =>
    intro h p he
    rw [splitHost] at he
    simp only [Prod.mk.injEq] at he
    obtain ⟨h1, h2⟩ := he
    subst h1
    subst h2
    rw [List.nil_append, splitHost, if_pos rfl]
  | cons c cs ih =>
    intro h p he
    rw [splitHost] at he
    by_cases hc : c = '/'
    · rw [if_pos hc] at he
      simp only [Prod.mk.injEq] at he
      obtain ⟨h1, h2⟩ := he
      subst h1
      subst h2
      rw [List.cons_append, splitHost, if_pos hc]
    · rw [if_neg hc] at he
      simp only [Prod.mk.injEq] at he
      obtain ⟨h1, h2⟩ := he
      subst h1
      subst h2
      rw [List.cons_append, splitHost, if_neg hc,
        ih (splitHost cs).1 (splitHost cs).2 rfl]

theorem parseUrl_append_slash (s : List Char) (u : UrlRec) (h : parseUrl s = some u) :
    parseUrl (s ++ ['/']) = some { u with path := u.path ++ ['/'] } := by
  cases hs : splitScheme s with
  | none => rw [parseUrl, hs] at h; exact absurd h (by simp)
  | some pr =>
    obtain ⟨sch, rest⟩ := pr
    simp only [parseUrl, hs] at h
    by_cases hsch : sch = []
    · rw [if_pos hsch] at h; exact absurd h (by simp)
    · rw [if_neg hsch] at h
      by_cases hhost : (splitHost rest).1 = []
      · rw [if_pos hhost] at h; exact absurd h (by simp)
      · rw [if_neg hhost] at h
        simp only [Option.some.injEq] at h
        simp only [parseUrl, splitScheme_append_slash s sch rest hs,
          splitHost_append_slash rest (splitHost rest).1 (splitHost rest).2 rfl]
        rw [if_neg hsch, if_neg hhost, ← h]

theorem basePathOf_no_trailing (p : List Char) (h : p.getLast? ≠ some '/') :
    basePathOf p = p ∧ basePathOf (p ++ ['/']) = p := by
  constructor
  · by_cases hp : p = []
    · subst hp
      rfl
    · rw [basePathOf, if_neg hp, if_neg h]
  · have hne : p ++ ['/'] ≠ [] := by simp
    rw [basePathOf, if_neg hne, if_pos (List.getLast?_concat p), List.dropLast_concat]

theorem serializeUrl_path_append (u : UrlRec) (x y : List Char) :
    serializeUrl { u with path := x ++ y } = serializeUrl { u with path := x } ++ y := by
  simp [serializeUrl, List.append_assoc]

theorem setPathname_of_ne_nil (u : UrlRec) (p : List Char) (h : p ≠ []) :
    setPathname u p = { u with path := p } := by
  rw [setPathname, if_neg h]

/-- C4 counterexample: at a bare-host root the emptied path re-serializes as
`"/"`, so the trailing slash is NOT normalized away from the resolved root:
resolving `https://a.example` — and likewise `https://a.example/` — yields
root `https://a.example/`, and the graphql endpoint is not
`root ++ "/graphql"` (that would be `https://a.example//graphql`). -/
theorem endpoint_resolution_cx :
    resolveUrls "https://a.example".data
      = Except.ok ("https://a.example/".data, "https://a.example/graphql".data,
          "https://a.example/graphql/system".data) ∧
    resolveUrls "https://a.example/".data
      = Except.ok ("https://a.example/".data, "https://a.example/graphql".data,
          "https://a.example/graphql/system".data) ∧
    "https://a.example/".data.getLast? = some '/' ∧
    "https://a.example/graphql".data ≠ "https://a.example/".data ++ "/graphql".data :=
  ⟨rfl, rfl, rfl, by decide⟩

/-- C4 (amended): endpoint resolution in `Plugin.setOptions` is pure and
idempotent — resolving the same root twice yields identical triples — and
both query endpoints extend a common base, `scheme://host` plus the pathname
with one trailing slash stripped: `gq = base ++ "/graphql"` and
`sys = base ++ "/graphql/system"`.  The resolved root equals that base except
at bare-host roots (base path empty), where the WHATWG serializer reinstates
the slash and the root is `base ++ "/"`; so the root's trailing slash is
normalized away exactly when the base path is non-empty.  Adding a trailing
slash to a root that lacks one changes neither the two derived query
endpoints nor the root; an input `new URL` cannot parse fails with the
tagged configuration error. -/
theorem endpoint_resolution (s : List Char) (u : UrlRec)
    (hparse : parseUrl s = some u) (hnoslash : u.path.getLast? ≠ some '/') :
    resolveUrls s = resolveUrls s ∧
    (∃ base root gq sys,
        resolveUrls s = Except.ok (root, gq, sys) ∧
        base = serializeUrl { u with path := basePathOf u.path } ∧
        gq = base ++ "/graphql".data ∧
        sys = base ++ "/graphql/system".data ∧
        root = (if basePathOf u.path = [] then base ++ ['/'] else base) ∧
        resolveUrls (s ++ ['/']) = Except.ok (root, gq, sys)) ∧
    (∀ t, parseUrl t = none →
        resolveUrls t = Except.error (errorMessage "\"url\" should be a valid URL")) := by
  obtain ⟨hbp1, hbp2⟩ := basePathOf_no_trailing u.path hnoslash
  have hgqne : basePathOf u.path ++ "/graphql".data ≠ [] := by
    intro h
    rw [List.append_eq_nil] at h
    exact absurd h.2 (by decide)
  have hsysne : basePathOf u.path ++ "/graphql/system".data ≠ [] := by
    intro h
    rw [List.append_eq_nil] at h
    exact absurd h.2 (by decide)
  refine ⟨rfl, ?_, ?_⟩
  · refine ⟨serializeUrl { u with path := basePathOf u.path },
      serializeUrl (setPathname u (basePathOf u.path)),
      serializeUrl (setPathname u (basePathOf u.path ++ "/graphql".data)),
      serializeUrl (setPathname u (basePathOf u.path ++ "/graphql/system".data)),
      ?_, rfl, ?_, ?_, ?_, ?_⟩
    · rw [resolveUrls, hparse]
    · rw [setPathname_of_ne_nil u _ hgqne, serializeUrl_path_append]
    · rw [setPathname_of_ne_nil u _ hsysne, serializeUrl_path_append]
    · by_cases hbp0 : basePathOf u.path = []
      · rw [if_pos hbp0, hbp0]
        show serializeUrl (setPathname u []) = serializeUrl { u with path := [] } ++ ['/']
        rw [setPathname, if_pos rfl]
        exact serializeUrl_path_append u [] ['/']
      · rw [if_neg hbp0, setPathname_of_ne_nil u _ hbp0]
    · rw [resolveUrls, parseUrl_append_slash s u hparse]
      have hsame : basePathOf (u.path ++ ['/']) = basePathOf u.path := hbp2.trans hbp1.symm
      simp only [setPathname, serializeUrl, hsame]
  · intro t ht
    rw [resolveUrls, ht]

/-- C4 (amended) witness: resolving `https://example.com/api` (non-empty base
path, so the root keeps no trailing slash) and the same root with a trailing
slash appended, on the concrete parse of that string. -/
theorem endpoint_resolution_witness :
    parseUrl "https://example.com/api".data
        = some ⟨"https".data, "example.com".data, "/api".data⟩ ∧
    ("/api".data.getLast? ≠ some '/') ∧
    (∃ base root gq sys,
        resolveUrls "https://example.com/api".data = Except.ok (root, gq, sys) ∧
        base = serializeUrl ⟨"https".data, "example.com".data, basePathOf "/api".data⟩ ∧
        gq = base ++ "/graphql".data ∧
        sys = base ++ "/graphql/system".data ∧
        root = (if basePathOf "/api".data = [] then base ++ ['/'] else base) ∧
        resolveUrls ("https://example.com/api".data ++ ['/'])
            = Except.ok (root, gq, sys)) :=
  ⟨by decide, by decide,
    (endpoint_resolution "https://example.com/api".data
      ⟨"https".data, "example.com".data, "/api".data⟩ (by decide) (by decide)).2.1⟩

/-! ## Lemmas on the plugin session lifecycle -/

/-- C6 counterexample: after a session is established from `cfgA`, invoking
`setOptions` with the different configuration `cfgB` is NOT a fatal logic
error: the guard `if (this.directus) return this.authPromise;` silently
returns the already-held session and ignores the new configuration. -/
theorem session_reconfig_cx :
    stA.directus.isSome = true ∧
    cfgB.url ≠ cfgA.url ∧
    setOptions trivialLogin stA cfgB = Except.ok (stA, stA.authPromise) :=
  ⟨rfl, by decide, rfl⟩

/-- C6 (amended): session establishment is write-once in the sense that once
a session is held, re-invoking `setOptions` with ANY configuration whose url
is non-empty — the same one or a different one — is a silent no-op returning
the already-held session; a differing configuration is ignored, not treated
as a fatal logic error, and the held state is never overwritten. -/
theorem session_write_once (loginFn : String → String → String) (st : PluginState)
    (o : PluginConfig) (h : st.directus.isSome = true) (hurl : o.url ≠ "") :
    setOptions loginFn st o = Except.ok (st, st.authPromise) := by
  have h1 : isEmptyOpt (some o.url) = false := by
    unfold isEmptyOpt
    simp only [decide_eq_false_iff_not]
    intro hlen
    exact hurl (String.ext (List.length_eq_zero.mp hlen))
  simp [setOptions, h1, h]

/-- C6 (amended) witness: the held `cfgA` session survives a `setOptions`
call with the different `cfgB`. -/
theorem session_write_once_witness :
    stA.directus.isSome = true ∧ cfgB.url ≠ "" ∧
    setOptions trivialLogin stA cfgB = Except.ok (stA, stA.authPromise) :=
  ⟨rfl, by decide, session_write_once trivialLogin stA cfgB rfl (by decide)⟩

/-- C7: for every established session holding a token, `Plugin.headers`
returns the user-supplied extra headers (static map or computed by a
user-supplied function, both captured by `userHeaders`) merged with an
`Authorization: Bearer <token>` entry, re-resolving the token held at the
moment of the call; and a configuration with a static token establishes its
session with zero login exchanges, the token adopted directly. -/
theorem headers_auth_bearer (st : PluginState) (session : DirectusSession) (t : String)
    (hs : st.directus = some session) (ht : session.token = some t) :
    (∃ hdrs, headersFn st = Except.ok hdrs ∧
        cacheGet hdrs "Authorization" = some ("Bearer " ++ t) ∧
        ∀ k, k ≠ "Authorization" → cacheGet hdrs k = cacheGet (userHeaders st) k) ∧
    (∀ t2, ∃ hdrs2,
        headersFn { st with directus := some { session with token := some t2 } }
          = Except.ok hdrs2 ∧
        cacheGet hdrs2 "Authorization" = some ("Bearer " ++ t2)) ∧
    (∀ (loginFn : String → String → String) (st0 : PluginState) (o : PluginConfig)
        (st2 : PluginState) (ap : Option String),
        st0.directus = none →
        isEmptyOpt (o.auth.bind AuthConfig.token) = false →
        setOptions loginFn st0 o = Except.ok (st2, ap) →
        ∃ sess2, st2.directus = some sess2 ∧ sess2.loginExchanges = 0 ∧
          sess2.token = o.auth.bind AuthConfig.token) := by
  refine ⟨?_, ?_, ?_⟩
  · refine ⟨("Authorization", "Bearer " ++ t) :: userHeaders st, ?_, ?_, ?_⟩
    · simp [headersFn, hs, ht]
    · rw [cacheGet, if_pos rfl]
    · intro k hk
      rw [cacheGet, if_neg (fun he => hk he.symm)]
  · intro t2
    refine ⟨("Authorization", "Bearer " ++ t2)
        :: userHeaders { st with directus := some { session with token := some t2 } }, ?_, ?_⟩
    · simp [headersFn]
    · rw [cacheGet, if_pos rfl]
  · intro loginFn st0 o st2 ap h0 htok hset
    by_cases hurl : isEmptyOpt (some o.url) = true
    · simp [setOptions, hurl] at hset
    · simp only [Bool.not_eq_true] at hurl
      simp [setOptions, hurl, h0, htok] at hset
      cases hres : resolveUrls o.url.data with
      | error m => rw [hres] at hset; simp at hset
      | ok triple =>
        obtain ⟨root, gq, sys⟩ := triple
        rw [hres] at hset
        simp only [Except.ok.injEq, Prod.mk.injEq] at hset
        obtain ⟨hst2, _⟩ := hset
        refine ⟨⟨o.auth.bind AuthConfig.token, 0⟩, ?_, rfl, rfl⟩
        rw [← hst2]

/-- C7 witness: the session established from `cfgA` (static token
`token-a`): `headers()` carries `Authorization: Bearer token-a` and forwards
the other user-supplied header keys. -/
theorem headers_auth_bearer_witness :
    stA.directus = some ⟨some "token-a", 0⟩ ∧
    (∃ hdrs, headersFn stA = Except.ok hdrs ∧
        cacheGet hdrs "Authorization" = some ("Bearer " ++ "token-a") ∧
        ∀ k, k ≠ "Authorization" → cacheGet hdrs k = cacheGet (userHeaders stA) k) :=
  ⟨rfl, (headers_auth_bearer stA ⟨some "token-a", 0⟩ "token-a" rfl rfl).1⟩

/-! ## Lemmas on filename splitting -/

theorem splitOnDot_shape : ∀ s : List Char, ∃ p ps, splitOnDot s = p :: ps := by
  intro s
  cases s with
  | nil => exact ⟨[], [], rfl⟩
  | cons c cs =>
    by_cases hc : c = '.'
    · exact ⟨[], splitOnDot cs, by rw [splitOnDot, if_pos hc]⟩
    · obtain ⟨p, ps, hps⟩ := splitOnDot_shape cs
      exact ⟨c :: p, ps, by rw [splitOnDot, if_neg hc, hps]⟩

theorem joinDots_cons_head (c : Char) (p : List Char) (ps : List (List Char)) :
    joinDots ((c :: p) :: ps) = c :: joinDots (p :: ps) := by
  cases ps with
  | nil => rfl
  | cons q qs => rfl

theorem joinDots_cons_of_ne (p : List Char) (ps : List (List Char)) (h : ps ≠ []) :
    joinDots (p :: ps) = p ++ '.' :: joinDots ps := by
  cases ps with
  | nil => exact absurd rfl h
  | cons q qs => rfl

theorem joinDots_splitOnDot : ∀ s : List Char, joinDots (splitOnDot s) = s := by
  intro s
  induction s with
  | nil => rfl
  | cons c cs ih =>
    obtain ⟨p, ps, hps⟩ := splitOnDot_shape cs
    by_cases hc : c = '.'
    · subst hc
      rw [splitOnDot, if_pos rfl, hps, joinDots_cons_of_ne [] (p :: ps) (by simp), ← hps, ih]
      rfl
    · have h1 : splitOnDot (c :: cs) = (c :: p) :: ps := by
        rw [splitOnDot, if_neg hc, hps]
      rw [h1, joinDots_cons_head, ← hps, ih]

theorem splitOnDot_length_iff : ∀ s : List Char, 1 < (splitOnDot s).length ↔ '.' ∈ s := by
  intro s
  induction s with
  | nil => simp [splitOnDot]
  | cons c cs ih =>
    obtain ⟨p, ps, hps⟩ := splitOnDot_shape cs
    by_cases hc : c = '.'
    · subst hc
      rw [splitOnDot, if_pos rfl, hps]
      simp [List.length_cons]
    · have h1 : splitOnDot (c :: cs) = (c :: p) :: ps := by
        rw [splitOnDot, if_neg hc, hps]
      rw [h1]
      have hlen : (splitOnDot cs).length = ps.length + 1 := by rw [hps]; rfl
      rw [hlen] at ih
      simp only [List.length_cons, ih, List.mem_cons]
      constructor
      · exact fun h => Or.inr h
      · rintro (h | h)
        · exact absurd h.symm hc
        · exact h

theorem splitOnDot_last_no_dot : ∀ s : List Char, '.' ∉ (splitOnDot s).getLastD [] := by
  intro s
  induction s with
  | nil => simp [splitOnDot, List.getLastD]
  | cons c cs ih =>
    obtain ⟨p, ps, hps⟩ := splitOnDot_shape cs
    by_cases hc : c = '.'
    · subst hc
      rw [splitOnDot, if_pos rfl, hps, List.getLastD_cons]
      rw [hps] at ih
      exact ih
    · have h1 : splitOnDot (c :: cs) = (c :: p) :: ps := by
        rw [splitOnDot, if_neg hc, hps]
      rw [h1]
      cases ps with
      | nil =>
        rw [hps] at ih
        intro hmem
        rcases List.mem_cons.mp hmem with hh | hh
        · exact hc hh.symm
        · exact ih hh
      | cons q qs =>
        rw [hps] at ih
        rw [List.getLastD_cons] at ih ⊢
        rwa [getLastD_irrel (q :: qs) (c :: p) p (by simp)]

theorem joinDots_dropLast :
    ∀ l : List (List Char), 1 < l.length →
      joinDots l = joinDots l.dropLast ++ '.' :: l.getLastD [] := by
  intro l
  induction l with
  | nil => intro h; simp at h
  | cons p ps ih =>
    intro h
    cases ps with
    | nil => simp at h
    | cons q qs =>
      rw [joinDots_cons_of_ne p (q :: qs) (by simp)]
      cases qs with
      | nil => rfl
      | cons r rs =>
        rw [ih (by simp [List.length_cons])]
        rw [show (p :: q :: r :: rs).dropLast = p :: (q :: r :: rs).dropLast from
          List.dropLast_cons_of_ne_nil (by simp)]
        rw [joinDots_cons_of_ne p ((q :: r :: rs).dropLast) (by simp)]
        rw [show (p :: q :: r :: rs).getLastD [] = (q :: r :: rs).getLastD [] from by
          rw [List.getLastD_cons]
          exact getLastD_irrel _ p [] (by simp)]
        simp [List.append_assoc]

/-- C8: for every download filename, the derived extension is the final
dot-segment with a leading dot when the filename contains a dot, and empty
otherwise, with the base name the remainder; in particular
`photo.jpg → (photo, .jpg)`, `README → (README, "")`,
`archive.tar.gz → (archive.tar, .gz)`. -/
theorem filename_splitting (s : List Char) :
    splitFilename "photo.jpg".data = ("photo".data, ".jpg".data) ∧
    splitFilename "README".data = ("README".data, "".data) ∧
    splitFilename "archive.tar.gz".data = ("archive.tar".data, ".gz".data) ∧
    ('.' ∈ s → ∃ name tail,
        splitFilename s = (name, '.' :: tail) ∧ s = name ++ '.' :: tail ∧ '.' ∉ tail) ∧
    ('.' ∉ s → splitFilename s = (s, [])) := by
  refine ⟨by decide, by decide, by decide, ?_, ?_⟩
  · intro hdot
    have hlen : 1 < (splitOnDot s).length := (splitOnDot_length_iff s).mpr hdot
    refine ⟨joinDots (splitOnDot s).dropLast, (splitOnDot s).getLastD [], ?_, ?_,
      splitOnDot_last_no_dot s⟩
    · rw [splitFilename, if_pos hlen]
    · conv_lhs => rw [← joinDots_splitOnDot s]
      exact joinDots_dropLast _ hlen
  · intro hdot
    have hlen : ¬ 1 < (splitOnDot s).length := fun h => hdot ((splitOnDot_length_iff s).mp h)
    rw [splitFilename, if_neg hlen, joinDots_splitOnDot s]

/-- C8 witness: the general dot-splitting law applied to the concrete
filename `a.b`. -/
theorem filename_splitting_witness :
    '.' ∈ "a.b".data ∧
    (∃ name tail, splitFilename "a.b".data = (name, '.' :: tail) ∧
        "a.b".data = name ++ '.' :: tail ∧ '.' ∉ tail) :=
  ⟨by decide, (filename_splitting "a.b".data).2.2.2.1 (by decide)⟩

/-! ## Error-message tagging -/

/-- C9 counterexample: the enumerator's not-ready error (also thrown by
`Plugin.headers`) is the bare string `Directus is not instantiated`, which
does not carry the `gatsby-source-directus` identity tag. -/
theorem error_tagging_cx :
    headersFn initialPluginState = Except.error notInstantiatedMessage ∧
    iterateFilesGuard initialPluginState = Except.error notInstantiatedMessage ∧
    ¬ hasTag notInstantiatedMessage :=
  ⟨rfl, rfl, by decide⟩

/-- C9 (amended): every error raised through the `error()` helper —
configuration and auth errors — is prefixed with the identity tag
`gatsby-source-directus`, but the enumerator's (and `headers`') not-ready
error and the image-field resolver's cache-miss error are thrown directly
with `new Error(...)` and carry no tag. -/
theorem error_tagging (m : String) (st : PluginState) (c : List (String × String))
    (nodes : List String) (fid : String)
    (h1 : st.directus = none) (h2 : cacheGet c fid = none) :
    hasTag (errorMessage m) ∧
    headersFn st = Except.error notInstantiatedMessage ∧
    iterateFilesGuard st = Except.error notInstantiatedMessage ∧
    ¬ hasTag notInstantiatedMessage ∧
    imageFileResolve c nodes fid = Except.error (cacheMissMessage fid) ∧
    ¬ hasTag (cacheMissMessage fid) := by
  refine ⟨?_, by simp [headersFn, h1], by simp [iterateFilesGuard, h1], by decide,
    by simp [imageFileResolve, h2], ?_⟩
  · show (errorMessage m).data.take identityTag.data.length = identityTag.data
    rw [errorMessage, String.data_append, String.data_append, List.append_assoc, List.take_left]
  · show ¬ (cacheMissMessage fid).data.take identityTag.data.length = identityTag.data
    rw [cacheMissMessage, String.data_append,
      List.take_append_of_le_length (by decide)]
    decide

/-- C9 (amended) witness: the tagged form of the url configuration error,
and the untagged not-ready and cache-miss errors, at concrete inputs. -/
theorem error_tagging_witness :
    hasTag (errorMessage "\"url\" must be defined") ∧
    headersFn initialPluginState = Except.error notInstantiatedMessage ∧
    iterateFilesGuard initialPluginState = Except.error notInstantiatedMessage ∧
    ¬ hasTag notInstantiatedMessage ∧
    imageFileResolve [] [] "abc" = Except.error (cacheMissMessage "abc") ∧
    ¬ hasTag (cacheMissMessage "abc") :=
  error_tagging "\"url\" must be defined" initialPluginState [] [] "abc" rfl rfl

/-- C10: `exports.sourceNodes` reads the plugin's option bundle
(`plugin.getOptions()`) and calls `headers()` before applying the plugin
options passed to it, so on a fresh plugin instance whose options were never
set by a prior lifecycle call it fails with the `TypeError` thrown by
`Object.entries(null)` instead of establishing a session from the supplied
configuration. -/
theorem source_nodes_null_options (loginFn : String → String → String)
    (popts : PluginConfig) :
    sourceNodesModel loginFn initialPluginState popts = Except.error typeErrorMessage ∧
    initialPluginState.options = none ∧
    initialPluginState.directus = none :=
  ⟨rfl, rfl, rfl⟩

end GatsbySourceDirectus
